import Mathlib

/-!
Verification of the `miso` token-id codec pipeline: ZigZag, Varint (LEB128),
FreqMap, Header, and the codec orchestrator.  Machine integers are modelled
as `Nat`/`Int` with explicit `% 2 ^ 32` wrapping; bytes are `Nat` values
(< 256 where it matters); fallible operations return `Except`.
-/

namespace Miso

instance instDecEqExcept {e a : Type} [DecidableEq e] [DecidableEq a] :
    DecidableEq (Except e a)
  | .error x, .error y =>
    if h : x = y then .isTrue (by rw [h]) else .isFalse (fun hc => h (Except.error.inj hc))
  | .error _, .ok _ => .isFalse (fun hc => Except.noConfusion hc)
  | .ok _, .error _ => .isFalse (fun hc => Except.noConfusion hc)
  | .ok x, .ok y =>
    if h : x = y then .isTrue (by rw [h]) else .isFalse (fun hc => h (Except.ok.inj hc))

/-- The `u32` bit pattern of a (possibly negative) integer: two's complement
reduction modulo `2 ^ 32`.  Models Rust's `as u32` casts. -/
def toU32 (x : Int) : Nat := (x % (2 ^ 32 : Int)).toNat

/-- Reinterpret a `u32` bit pattern as a signed `i32` value.
Models Rust's `as i32` casts. -/
def fromU32 (n : Nat) : Int := if n < 2 ^ 31 then (n : Int) else (n : Int) - 2 ^ 32

namespace zigzag

/-- Model of `zigzag::encode` (src/zigzag.rs): `((value << 1) ^ (value >> 31)) as u32`.
`value << 1` on `i32` wraps, giving bit pattern `toU32 (value * 2)`;
`value >> 31` is an arithmetic shift, i.e. floor division by `2 ^ 31`;
the `i32` xor acts on the two bit patterns. -/
def encode (value : Int) : Nat := toU32 (value * 2) ^^^ toU32 (value.fdiv (2 ^ 31))

/-- Model of `zigzag::decode` (src/zigzag.rs):
`((value >> 1) as i32) ^ (-((value & 1) as i32))` on a `u32` input. -/
def decode (value : Nat) : Int :=
  fromU32 ((value >>> 1) ^^^ toU32 (-((value &&& 1 : Nat) : Int)))

end zigzag

/-- Xor with an all-ones mask is complement: `n ^^^ (2^w - 1) = 2^w - 1 - n`
for `n < 2^w`. -/
theorem xor_two_pow_sub_one {w n : Nat} (h : n < 2 ^ w) :
    n ^^^ (2 ^ w - 1) = 2 ^ w - 1 - n := by
  apply Nat.eq_of_testBit_eq
  intro i
  have h2 : 2 ^ w - 1 - n = 2 ^ w - (n + 1) := by omega
  rw [Nat.testBit_xor, Nat.testBit_two_pow_sub_one, h2,
    Nat.testBit_two_pow_sub_succ h]
  by_cases hi : i < w
  · simp [hi]
  · have hn : n < 2 ^ i := lt_of_lt_of_le h (Nat.pow_le_pow_right (by norm_num) (le_of_not_lt hi))
    simp [hi, Nat.testBit_lt_two_pow hn]

theorem toU32_of_nonneg {x : Int} (h0 : 0 ≤ x) (h1 : x < 2 ^ 32) : toU32 x = x.toNat := by
  unfold toU32
  rw [Int.emod_eq_of_lt h0 (by exact_mod_cast h1)]

theorem toU32_of_neg {x : Int} (h0 : -2 ^ 32 ≤ x) (h1 : x < 0) :
    toU32 x = (x + 2 ^ 32).toNat := by
  unfold toU32
  have : x % (2 ^ 32 : Int) = x + 2 ^ 32 := by omega
  rw [this]

theorem toU32_lt (x : Int) : toU32 x < 2 ^ 32 := by
  unfold toU32
  have h1 : x % (2 ^ 32 : Int) < 2 ^ 32 := Int.emod_lt_of_pos x (by norm_num)
  have h0 : 0 ≤ x % (2 ^ 32 : Int) := Int.emod_nonneg x (by norm_num)
  omega

namespace zigzag

/-- Value-level characterisation of `zigzag.encode` on the `i32` range. -/
theorem encode_eq {x : Int} (h0 : -2 ^ 31 ≤ x) (h1 : x < 2 ^ 31) :
    encode x = if 0 ≤ x then (2 * x).toNat else (-2 * x - 1).toNat := by
  unfold encode
  by_cases hx : 0 ≤ x
  · have hd : x.fdiv (2 ^ 31) = 0 := by
      rw [Int.fdiv_eq_ediv _ (by norm_num)]
      omega
    rw [hd]
    have : toU32 0 = 0 := by simp [toU32]
    rw [this, Nat.xor_zero, toU32_of_nonneg (by omega) (by omega)]
    simp [hx, Int.mul_comm]
  · have hd : x.fdiv (2 ^ 31) = -1 := by
      rw [Int.fdiv_eq_ediv _ (by norm_num)]
      omega
    rw [hd]
    have hm : toU32 (-1) = 2 ^ 32 - 1 := by
      rw [toU32_of_neg (by norm_num) (by norm_num)]
      rfl
    rw [hm, toU32_of_neg (by omega) (by omega)]
    have hlt : (x * 2 + 2 ^ 32).toNat < 2 ^ 32 := by omega
    rw [xor_two_pow_sub_one hlt]
    simp only [hx, if_false]
    omega

/-- ZigZag round trip on the full `i32` range. -/
theorem decode_encode_i32 {x : Int} (h0 : -2 ^ 31 ≤ x) (h1 : x < 2 ^ 31) :
    decode (encode x) = x := by
  rw [encode_eq h0 h1]
  unfold decode
  by_cases hx : 0 ≤ x
  · simp only [hx, if_true]
    have he : (2 * x).toNat = 2 * x.toNat := by omega
    rw [he]
    have h1' : (2 * x.toNat) >>> 1 = x.toNat := by
      rw [Nat.shiftRight_eq_div_pow]
      omega
    have h2' : (2 * x.toNat) &&& 1 = 0 := by
      rw [Nat.and_one_is_mod]
      omega
    rw [h1', h2']
    have h3' : toU32 (-(((0 : Nat) : Int))) = 0 := by simp [toU32]
    rw [h3', Nat.xor_zero]
    unfold fromU32
    have : x.toNat < 2 ^ 31 := by omega
    simp [this]
    omega
  · simp only [hx, if_false]
    set m : Nat := (-x).toNat with hm
    have hm1 : 1 ≤ m := by omega
    have hm2 : m ≤ 2 ^ 31 := by omega
    have he : (-2 * x - 1).toNat = 2 * m - 1 := by omega
    rw [he]
    have h1' : (2 * m - 1) >>> 1 = m - 1 := by
      rw [Nat.shiftRight_eq_div_pow]
      omega
    have h2' : (2 * m - 1) &&& 1 = 1 := by
      rw [Nat.and_one_is_mod]
      omega
    rw [h1', h2']
    have h3' : toU32 (-((1 : Nat) : Int)) = 2 ^ 32 - 1 := by
      rw [show (-((1 : Nat) : Int)) = -1 by norm_num,
        toU32_of_neg (by norm_num) (by norm_num)]
      rfl
    rw [h3', xor_two_pow_sub_one (by omega)]
    unfold fromU32
    have : ¬(2 ^ 32 - 1 - (m - 1) < 2 ^ 31) := by omega
    simp only [this, if_false]
    omega

end zigzag

namespace varint

/-- Error taxonomy of `varint::decode` (src/varint.rs), plus a `panic`
outcome instrumenting Rust's checked shift (`payload << shift` traps when
the shift amount is ≥ 32). -/
inductive Err where
  | truncated
  | overflow
  | panic
deriving DecidableEq, Repr

/-- Rust `u32` left shift: traps (`panic`) when the shift amount is ≥ 32,
otherwise keeps the low 32 bits. -/
def shlChecked (p s : Nat) : Except Err Nat :=
  if 32 ≤ s then .error .panic else .ok ((p <<< s) % 2 ^ 32)

/-- Fuel-indexed version of the per-value encode loop; the fuel only drives
structural recursion and is irrelevant whenever it exceeds the number of
iterations (`encodeOneF_fuel_irrel`). -/
def encodeOneF : Nat → Nat → List Nat
  | 0, v => [v &&& 127]
  | fuel + 1, v =>
    let byte := v &&& 127
    if v >>> 7 ≠ 0 then (byte ||| 128) :: encodeOneF fuel (v >>> 7) else [byte]

/-- The byte group emitted by `varint::encode` for a single value: low 7 bits
per byte, continuation bit `0x80` while more bits remain (the loop runs at
most `v + 1` times since `v` shrinks by a factor of 128 per iteration). -/
def encodeOne (v : Nat) : List Nat := encodeOneF (v + 1) v

theorem encodeOneF_succ (fuel v : Nat) :
    encodeOneF (fuel + 1) v =
      if v >>> 7 ≠ 0 then ((v &&& 127) ||| 128) :: encodeOneF fuel (v >>> 7)
      else [v &&& 127] := rfl

/-- Model of `varint::encode` (src/varint.rs): concatenate the per-value
byte groups. -/
def encode : List Nat → List Nat
  | [] => []
  | v :: vs => encodeOne v ++ encode vs

/-- The decoding loop of `varint::decode` (src/varint.rs): `acc`/`shift` are
the accumulator and bit position of the value currently being assembled. -/
def go : List Nat → Nat → Nat → Except Err (List Nat)
  | [], _, shift => if shift ≠ 0 then .error .truncated else .ok []
  | b :: rest, acc, shift =>
    if 32 ≤ shift then .error .overflow
    else
      match shlChecked (b &&& 127) shift with
      | .error e => .error e
      | .ok sh =>
        if b &&& 128 == 0 then
          match go rest 0 0 with
          | .error e => .error e
          | .ok vs => .ok ((acc ||| sh) :: vs)
        else go rest (acc ||| sh) (shift + 7)

/-- Model of `varint::decode` (src/varint.rs). -/
def decode (bytes : List Nat) : Except Err (List Nat) := go bytes 0 0

theorem encodeOneF_fuel_irrel : ∀ fuel fuel' v : Nat, v < fuel → v < fuel' →
    encodeOneF fuel v = encodeOneF fuel' v := by
  intro fuel
  induction fuel with
  | zero => omega
  | succ fuel ih =>
    intro fuel' v hv hv'
    cases fuel' with
    | zero => omega
    | succ fuel' =>
      rw [encodeOneF_succ, encodeOneF_succ]
      by_cases h7 : v >>> 7 ≠ 0
      · rw [if_pos h7, if_pos h7]
        have hd : v >>> 7 < v := by
          rw [Nat.shiftRight_eq_div_pow] at h7 ⊢
          exact Nat.div_lt_self (by omega) (by norm_num)
        rw [ih fuel' (v >>> 7) (by omega) (by omega)]
      · rw [if_neg h7, if_neg h7]

theorem encodeOne_of_small {v : Nat} (h : v < 128) : encodeOne v = [v] := by
  rw [encodeOne, encodeOneF_succ]
  have h7 : v >>> 7 = 0 := by
    rw [Nat.shiftRight_eq_div_pow]
    omega
  have hand : v &&& 127 = v := by
    have := Nat.and_pow_two_sub_one_of_lt_two_pow (n := 7) (x := v) h
    simpa using this
  simp [h7, hand]

theorem encodeOne_of_large {v : Nat} (h : 128 ≤ v) :
    encodeOne v = ((v &&& 127) ||| 128) :: encodeOne (v >>> 7) := by
  rw [encodeOne, encodeOneF_succ]
  have h7 : v >>> 7 ≠ 0 := by
    rw [Nat.shiftRight_eq_div_pow]
    omega
  have hd : v >>> 7 < v := by
    rw [Nat.shiftRight_eq_div_pow] at h7 ⊢
    exact Nat.div_lt_self (by omega) (by norm_num)
  rw [if_pos h7, encodeOne,
    encodeOneF_fuel_irrel v (v >>> 7 + 1) (v >>> 7) (by omega) (by omega)]

theorem and_128_eq_zero {v : Nat} (h : v < 128) : v &&& 128 = 0 := by
  apply Nat.eq_of_testBit_eq
  intro i
  rw [Nat.testBit_and]
  rcases eq_or_ne i 7 with rfl | hne
  · rw [Nat.testBit_lt_two_pow h]
    simp
  · have h128 : (128 : Nat).testBit i = false := by
      rw [show (128 : Nat) = 2 ^ 7 by norm_num, Nat.testBit_two_pow]
      simp [Ne.symm hne]
    simp [h128]

theorem or_128_and_127 (a : Nat) : (a ||| 128) &&& 127 = a &&& 127 := by
  rw [Nat.and_distrib_right]
  have : (128 : Nat) &&& 127 = 0 := by decide
  simp [this]

theorem or_128_and_128 (a : Nat) : ((a &&& 127) ||| 128) &&& 128 = 128 := by
  rw [Nat.and_distrib_right, Nat.and_assoc]
  have h1 : (127 : Nat) &&& 128 = 0 := by decide
  have h2 : (128 : Nat) &&& 128 = 128 := by decide
  simp [h1, h2]

theorem lor_low_eq_add {s a b : Nat} (ha : a < 2 ^ s) : a ||| b * 2 ^ s = a + b * 2 ^ s := by
  have h := Nat.mul_add_lt_is_or (i := s) ha b
  rw [Nat.lor_comm, Nat.mul_comm b (2 ^ s)]
  omega

/-- Unfolding of one continuation-byte step of the decode loop. -/
theorem go_cont_step {b : Nat} (rest : List Nat) (acc shift : Nat)
    (hs : shift < 32) (hb : b &&& 128 ≠ 0) :
    go (b :: rest) acc shift =
      go rest (acc ||| (b &&& 127) <<< shift % 2 ^ 32) (shift + 7) := by
  have hguard : ¬ 32 ≤ shift := by omega
  simp [go, shlChecked, hguard, hb]

/-- Unfolding of one terminator-byte step of the decode loop. -/
theorem go_term_step {b : Nat} (rest : List Nat) (acc shift : Nat)
    (hs : shift < 32) (hb : b &&& 128 = 0) :
    go (b :: rest) acc shift =
      (go rest 0 0).map (fun vs => (acc ||| (b &&& 127) <<< shift % 2 ^ 32) :: vs) := by
  have hguard : ¬ 32 ≤ shift := by omega
  simp only [go, shlChecked, hguard, if_false, hb, beq_self_eq_true, if_true]
  cases hgo : go rest 0 0 <;> simp [hgo, Except.map]

theorem and_127_eq_mod (v : Nat) : v &&& 127 = v % 128 := by
  rw [show (127 : Nat) = 2 ^ 7 - 1 by norm_num, Nat.and_pow_two_sub_one_eq_mod]

theorem shiftRight_7_eq_div (v : Nat) : v >>> 7 = v / 128 := by
  rw [Nat.shiftRight_eq_div_pow]

/-- Key invariant: decoding the byte group of `v` (at bit position `7 * n`,
with `acc` holding the bits below position `7 * n`) yields `acc + v * 2 ^ (7 * n)`
and continues with the rest of the stream. -/
theorem go_encodeOne :
    ∀ v rest (acc n : Nat), v < 2 ^ (32 - 7 * n) → n ≤ 4 → acc < 2 ^ (7 * n) →
    go (encodeOne v ++ rest) acc (7 * n) =
      (go rest 0 0).map (fun vs => (acc + v * 2 ^ (7 * n)) :: vs) := by
  intro v
  induction v using Nat.strong_induction_on with
  | _ v ih =>
    intro rest acc n hv hn hacc
    have hpow_eq : 2 ^ (32 - 7 * n) * 2 ^ (7 * n) = 2 ^ 32 := by
      rw [← Nat.pow_add]
      congr 1
      omega
    by_cases hsmall : v < 128
    · rw [encodeOne_of_small hsmall, List.singleton_append]
      have hand : v &&& 127 = v := by rw [and_127_eq_mod]; omega
      rw [go_term_step rest acc (7 * n) (by omega) (and_128_eq_zero hsmall), hand]
      have hnowrap : v <<< (7 * n) % 2 ^ 32 = v * 2 ^ (7 * n) := by
        rw [Nat.shiftLeft_eq]
        apply Nat.mod_eq_of_lt
        calc v * 2 ^ (7 * n) < 2 ^ (32 - 7 * n) * 2 ^ (7 * n) :=
              (Nat.mul_lt_mul_right (Nat.pos_pow_of_pos _ (by norm_num))).mpr hv
          _ = 2 ^ 32 := hpow_eq
      rw [hnowrap, lor_low_eq_add hacc]
    · rw [encodeOne_of_large (by omega), List.cons_append]
      have hn3 : n ≤ 3 := by
        rcases Nat.lt_or_ge n 4 with h | h
        · omega
        · exfalso
          have hn4 : n = 4 := by omega
          rw [hn4, show 32 - 7 * 4 = 4 by norm_num] at hv
          omega
      have hcont : ((v &&& 127) ||| 128) &&& 128 ≠ 0 := by
        rw [or_128_and_128 v]
        norm_num
      rw [go_cont_step _ acc (7 * n) (by omega) hcont, or_128_and_127, Nat.and_assoc,
        Nat.and_self]
      have hple : v &&& 127 ≤ 127 := Nat.and_le_right
      have hnowrap : (v &&& 127) <<< (7 * n) % 2 ^ 32 = (v &&& 127) * 2 ^ (7 * n) := by
        rw [Nat.shiftLeft_eq]
        apply Nat.mod_eq_of_lt
        calc (v &&& 127) * 2 ^ (7 * n) ≤ 127 * 2 ^ 21 := by
              apply Nat.mul_le_mul hple
              exact Nat.pow_le_pow_right (by norm_num) (by omega)
          _ < 2 ^ 32 := by norm_num
      rw [hnowrap, lor_low_eq_add hacc]
      have hpow7 : 2 ^ (7 * (n + 1)) = 2 ^ (7 * n) * 128 := by
        rw [show 7 * (n + 1) = 7 * n + 7 by ring, Nat.pow_add]
      have hdm : 128 * (v / 128) + v % 128 = v := Nat.div_add_mod v 128
      have hd_lt : v >>> 7 < v := by
        rw [shiftRight_7_eq_div]
        exact Nat.div_lt_self (by omega) (by norm_num)
      have hv' : v >>> 7 < 2 ^ (32 - 7 * (n + 1)) := by
        rw [shiftRight_7_eq_div]
        have hexp : 2 ^ (32 - 7 * (n + 1)) * 128 = 2 ^ (32 - 7 * n) := by
          rw [show (128 : Nat) = 2 ^ 7 by norm_num, ← Nat.pow_add]
          congr 1
          omega
        refine (Nat.div_lt_iff_lt_mul (by norm_num)).mpr ?_
        omega
      have hacc' : acc + (v &&& 127) * 2 ^ (7 * n) < 2 ^ (7 * (n + 1)) := by
        rw [hpow7, and_127_eq_mod]
        have h1 : v % 128 * 2 ^ (7 * n) ≤ 127 * 2 ^ (7 * n) :=
          Nat.mul_le_mul_right _ (by omega)
        have h2 : 2 ^ (7 * n) * 128 = 128 * 2 ^ (7 * n) := Nat.mul_comm _ _
        omega
      rw [show 7 * n + 7 = 7 * (n + 1) by ring,
        ih (v >>> 7) hd_lt rest (acc + (v &&& 127) * 2 ^ (7 * n)) (n + 1) hv' (by omega) hacc']
      have key : ∀ P q r : Nat, 128 * q + r = v →
          acc + r * P + q * (P * 128) = acc + v * P := by
        intro P q r h
        subst h
        ring
      have harith : acc + (v &&& 127) * 2 ^ (7 * n) + v >>> 7 * 2 ^ (7 * (n + 1)) =
          acc + v * 2 ^ (7 * n) := by
        rw [and_127_eq_mod, shiftRight_7_eq_div, hpow7]
        exact key (2 ^ (7 * n)) (v / 128) (v % 128) hdm
      rw [harith]

/-- Varint round trip: decoding an encoded stream of `u32` values returns
exactly the original sequence. -/
theorem decode_encode_stream : ∀ vs : List Nat, (∀ v ∈ vs, v < 2 ^ 32) →
    decode (encode vs) = .ok vs := by
  intro vs
  induction vs with
  | nil => intro _; rfl
  | cons v vs ih =>
    intro h
    have hv : v < 2 ^ 32 := h v (by simp)
    have hrest : decode (encode vs) = .ok vs := ih (fun u hu => h u (by simp [hu]))
    show go (encodeOne v ++ encode vs) 0 0 = .ok (v :: vs)
    have h0 := go_encodeOne v (encode vs) 0 0 (by simpa using hv) (by omega) (by norm_num)
    norm_num at h0
    rw [h0, show go (encode vs) 0 0 = Except.ok vs from hrest]
    simp [Except.map]

theorem encodeOne_length_pos (v : Nat) : 1 ≤ (encodeOne v).length := by
  by_cases h : v < 128
  · rw [encodeOne_of_small h]
    simp
  · rw [encodeOne_of_large (by omega)]
    simp

theorem encodeOne_length_le : ∀ k, ∀ v < 2 ^ (7 * (k + 1)), (encodeOne v).length ≤ k + 1 := by
  intro k
  induction k with
  | zero =>
    intro v hv
    rw [encodeOne_of_small (by norm_num at hv; omega)]
    simp
  | succ k ih =>
    intro v hv
    by_cases h : v < 128
    · rw [encodeOne_of_small h]
      simp only [List.length_singleton]
      omega
    · rw [encodeOne_of_large (by omega)]
      have hd : v >>> 7 < 2 ^ (7 * (k + 1)) := by
        rw [shiftRight_7_eq_div]
        refine (Nat.div_lt_iff_lt_mul (by norm_num)).mpr ?_
        have : 2 ^ (7 * (k + 1)) * 128 = 2 ^ (7 * (k + 1 + 1)) := by
          rw [show (128 : Nat) = 2 ^ 7 by norm_num, ← Nat.pow_add,
            show 7 * (k + 1) + 7 = 7 * (k + 1 + 1) from by ring]
        omega
      have := ih (v >>> 7) hd
      simp only [List.length_cons]
      omega

/-- Each `u32` value occupies between 1 and 5 bytes. -/
theorem encodeOne_length_bounds {v : Nat} (hv : v < 2 ^ 32) :
    1 ≤ (encodeOne v).length ∧ (encodeOne v).length ≤ 5 := by
  refine ⟨encodeOne_length_pos v, ?_⟩
  have : v < 2 ^ (7 * 5) := by
    calc v < 2 ^ 32 := hv
      _ ≤ 2 ^ 35 := Nat.pow_le_pow_right (by norm_num) (by norm_num)
  exact encodeOne_length_le 4 v this

/-- A byte carries the continuation bit `0x80`. -/
def isCont (b : Nat) : Bool := b &&& 128 != 0

/-- The stream ends mid-value: its last byte (if any) has the continuation
bit set; with a pending bit position `7 * n`, an empty stream is mid-value
iff `n ≠ 0`. -/
def endsCont (n : Nat) (bytes : List Nat) : Prop :=
  match bytes.getLast? with
  | none => n ≠ 0
  | some b => isCont b = true

/-- Spec-level overflow scan: tracking the number `n` of 7-bit groups already
accumulated for the current value, some value requires a shift of 32 or more
bits before its terminating byte is seen. -/
def ovfSpec : List Nat → Nat → Bool
  | [], _ => false
  | b :: rest, n =>
    if 32 ≤ 7 * n then true
    else if isCont b then ovfSpec rest (n + 1) else ovfSpec rest 0

theorem map_eq_error_iff {α β : Type} (r : Except Err α) (f : α → β) (x : Err) :
    r.map f = .error x ↔ r = .error x := by
  cases r <;> simp [Except.map]

/-- Outcome classification of the decode loop in terms of the spec-level
overflow scan and the trailing continuation bit. -/
theorem go_classify : ∀ (bytes : List Nat) (acc n : Nat), n ≤ 5 →
    (go bytes acc (7 * n) = .error .overflow ↔ ovfSpec bytes n = true)
    ∧ (go bytes acc (7 * n) = .error .truncated ↔
        (ovfSpec bytes n = false ∧ endsCont n bytes))
    ∧ go bytes acc (7 * n) ≠ .error .panic := by
  intro bytes
  induction bytes with
  | nil =>
    intro acc n hn
    by_cases hz : n = 0
    · subst hz
      simp [go, ovfSpec, endsCont]
    · have h7 : 7 * n ≠ 0 := by omega
      simp [go, h7, ovfSpec, endsCont, hz]
  | cons b rest ih =>
    intro acc n hn
    by_cases h32 : 32 ≤ 7 * n
    · have hstep : go (b :: rest) acc (7 * n) = .error .overflow := by
        simp [go, h32]
      simp [hstep, ovfSpec, h32]
    · have hn4 : n ≤ 4 := by omega
      by_cases hc : b &&& 128 = 0
      · have hic : isCont b = false := by simp [isCont, hc]
        rw [go_term_step rest acc (7 * n) (by omega) hc]
        have hspec : ovfSpec (b :: rest) n = ovfSpec rest 0 := by
          simp [ovfSpec, h32, hic]
        have hend : endsCont n (b :: rest) ↔ endsCont 0 rest := by
          cases rest with
          | nil => simp [endsCont, hic]
          | cons c cs =>
            unfold endsCont
            rw [List.getLast?_cons_cons]
            cases hL : (c :: cs).getLast? with
            | none => exact absurd (List.getLast?_eq_none_iff.mp hL) (by simp)
            | some x => exact Iff.rfl
        obtain ⟨ih1, ih2, ih3⟩ := ih 0 0 (by omega)
        rw [show 7 * 0 = 0 by norm_num] at ih1 ih2 ih3
        rw [hspec, hend, map_eq_error_iff, map_eq_error_iff]
        refine ⟨ih1, ih2, ?_⟩
        rw [Ne, map_eq_error_iff]
        exact ih3
      · have hic : isCont b = true := by simp [isCont, hc]
        rw [go_cont_step rest acc (7 * n) (by omega) hc,
          show 7 * n + 7 = 7 * (n + 1) by ring]
        have hspec : ovfSpec (b :: rest) n = ovfSpec rest (n + 1) := by
          simp [ovfSpec, h32, hic]
        have hend : endsCont n (b :: rest) ↔ endsCont (n + 1) rest := by
          cases rest with
          | nil => simp [endsCont, hic]
          | cons c cs =>
            unfold endsCont
            rw [List.getLast?_cons_cons]
            cases hL : (c :: cs).getLast? with
            | none => exact absurd (List.getLast?_eq_none_iff.mp hL) (by simp)
            | some x => exact Iff.rfl
        obtain ⟨ih1, ih2, ih3⟩ := ih (acc ||| (b &&& 127) <<< (7 * n) % 2 ^ 32) (n + 1)
          (by omega)
        rw [hspec, hend]
        exact ⟨ih1, ih2, ih3⟩

/-- Structural overflow condition on continuation flags: after a value
boundary, five consecutive continuation bytes are followed by a sixth byte. -/
def OvfFlags (flags : List Bool) : Prop :=
  ∃ pre suf, flags = pre ++ List.replicate 5 true ++ suf ∧
    (pre = [] ∨ ∃ p, pre = p ++ [false]) ∧ suf ≠ []

/-- The claim-level overflow condition on a byte stream: some single value
accumulates five continuation bytes (so its sixth byte would be placed at
bit position 35 ≥ 32) and that sixth byte is present. -/
def OvfCond (bytes : List Nat) : Prop := OvfFlags (bytes.map isCont)

theorem ovfFlags_length {flags : List Bool} (h : OvfFlags flags) : 6 ≤ flags.length := by
  obtain ⟨pre, suf, heq, -, hsuf⟩ := h
  rw [heq]
  have : 1 ≤ suf.length := List.length_pos.mpr hsuf
  simp only [List.length_append, List.length_replicate]
  omega

theorem ovfFlags_skip {n : Nat} (hn : n ≤ 4) (fs : List Bool) :
    OvfFlags (List.replicate n true ++ false :: fs) ↔ OvfFlags fs := by
  constructor
  · rintro ⟨pre, suf, heq, hpre, hsuf⟩
    have hfalse : (List.replicate n true ++ false :: fs)[n]? = some false := by
      rw [List.getElem?_append_right (by simp)]
      simp
    by_cases hL : pre.length ≤ n
    · exfalso
      have hcast := congrArg (fun l => l[n]?) heq
      simp only at hcast
      rw [hfalse] at hcast
      rw [List.append_assoc, List.getElem?_append_right hL,
        List.getElem?_append_left (by simp only [List.length_replicate]; omega),
        List.getElem?_replicate_of_lt (by omega)] at hcast
      simp at hcast
    · push_neg at hL
      have hlenA : (List.replicate n true ++ [false]).length = n + 1 := by simp
      have heq' : (List.replicate n true ++ [false]) ++ fs =
          pre ++ (List.replicate 5 true ++ suf) := by
        rw [List.append_assoc]
        simpa using heq
      have hlen_take : (pre.take (n + 1)).length = n + 1 := by
        rw [List.length_take]
        omega
      have hsplit : pre = pre.take (n + 1) ++ pre.drop (n + 1) :=
        (List.take_append_drop _ _).symm
      have htakeA : pre.take (n + 1) = List.replicate n true ++ [false] := by
        have h1 := congrArg (fun l => l.take (n + 1)) heq'
        simp only at h1
        rw [List.take_left' hlenA] at h1
        conv at h1 =>
          rhs
          rw [hsplit, List.append_assoc, List.take_left' hlen_take]
        exact h1.symm
      have heq'' : (List.replicate n true ++ [false]) ++ fs =
          (List.replicate n true ++ [false]) ++ (pre.drop (n + 1) ++ (List.replicate 5 true ++ suf)) := by
        rw [heq']
        conv =>
          lhs
          rw [hsplit, htakeA, List.append_assoc]
      have hfs : fs = pre.drop (n + 1) ++ (List.replicate 5 true ++ suf) :=
        List.append_inj_right heq'' rfl
      refine ⟨pre.drop (n + 1), suf, by rw [hfs, List.append_assoc], ?_, hsuf⟩
      rcases List.eq_nil_or_concat (pre.drop (n + 1)) with h2 | ⟨L, c, h2⟩
      · exact Or.inl h2
      · right
        rcases hpre with h0 | ⟨p, hp⟩
        · rw [h0] at hL
          simp at hL
        · have hg1 : pre.getLast? = some false := by
            rw [hp]
            exact List.getLast?_concat _
          have hg2 : pre.getLast? = some c := by
            conv =>
              lhs
              rw [hsplit, h2, List.concat_eq_append, ← List.append_assoc]
            exact List.getLast?_concat _
          have hc : c = false := by
            rw [hg1] at hg2
            exact (Option.some.inj hg2).symm
          exact ⟨L, by rw [h2, List.concat_eq_append, hc]⟩
  · rintro ⟨pre, suf, heq, hpre, hsuf⟩
    refine ⟨List.replicate n true ++ false :: pre, suf, ?_, ?_, hsuf⟩
    · rw [heq]
      simp [List.append_assoc]
    · right
      rcases hpre with h0 | ⟨p, hp⟩
      · exact ⟨List.replicate n true, by rw [h0]⟩
      · exact ⟨List.replicate n true ++ false :: p, by rw [hp]; simp⟩

/-- The spec-level overflow scan agrees with the structural overflow
condition (with `n` pending continuation flags prepended). -/
theorem ovfSpec_iff : ∀ (bytes : List Nat) (n : Nat), n ≤ 5 →
    (ovfSpec bytes n = true ↔ OvfFlags (List.replicate n true ++ bytes.map isCont)) := by
  intro bytes
  induction bytes with
  | nil =>
    intro n hn
    simp only [ovfSpec, List.map_nil, List.append_nil]
    constructor
    · intro h
      exact absurd h (by simp)
    · intro h
      have := ovfFlags_length h
      simp only [List.length_replicate] at this
      omega
  | cons b rest ih =>
    intro n hn
    by_cases h32 : 32 ≤ 7 * n
    · have hn5 : n = 5 := by omega
      subst hn5
      simp only [ovfSpec, h32, if_true, List.map_cons]
      constructor
      · intro _
        exact ⟨[], isCont b :: rest.map isCont, by simp, Or.inl rfl, by simp⟩
      · intro _
        trivial
    · have hn4 : n ≤ 4 := by omega
      cases hic : isCont b with
      | true =>
        have hflags : List.replicate n true ++ (b :: rest).map isCont =
            List.replicate (n + 1) true ++ rest.map isCont := by
          rw [List.map_cons, hic, List.replicate_succ', List.append_assoc,
            List.singleton_append]
        rw [hflags, show ovfSpec (b :: rest) n = ovfSpec rest (n + 1) by
          simp [ovfSpec, h32, hic]]
        exact ih (n + 1) (by omega)
      | false =>
        have hflags : List.replicate n true ++ (b :: rest).map isCont =
            List.replicate n true ++ false :: rest.map isCont := by
          rw [List.map_cons, hic]
        rw [hflags, show ovfSpec (b :: rest) n = ovfSpec rest 0 by
          simp [ovfSpec, h32, hic], ovfFlags_skip hn4]
        have := ih 0 (by omega)
        simpa using this

end varint

namespace freq

/-- The sort key of `FreqMap::from_token_ids` (src/freq_map.rs): occurrence
count descending, token ID ascending on ties. -/
def keyLe (ids : List Int) (a b : Int) : Prop :=
  ids.count b < ids.count a ∨ (ids.count a = ids.count b ∧ a ≤ b)

instance keyLe.instDecidable (ids : List Int) : DecidableRel (keyLe ids) := fun _ _ => by
  unfold keyLe
  infer_instance

instance keyLe.instIsTotal (ids : List Int) : IsTotal Int (keyLe ids) where
  total a b := by
    unfold keyLe
    rcases Int.le_total a b with h | h
    · rcases Nat.lt_or_ge (ids.count b) (ids.count a) with h2 | h2
      · exact Or.inl (Or.inl h2)
      · rcases Nat.eq_or_lt_of_le h2 with h3 | h3
        · exact Or.inl (Or.inr ⟨h3, h⟩)
        · exact Or.inr (Or.inl h3)
    · rcases Nat.lt_or_ge (ids.count a) (ids.count b) with h2 | h2
      · exact Or.inr (Or.inl h2)
      · rcases Nat.eq_or_lt_of_le h2 with h3 | h3
        · exact Or.inr (Or.inr ⟨h3, h⟩)
        · exact Or.inl (Or.inl h3)

instance keyLe.instIsTrans (ids : List Int) : IsTrans Int (keyLe ids) where
  trans a b c hab hbc := by
    unfold keyLe at *
    rcases hab with h1 | ⟨h1, h1'⟩ <;> rcases hbc with h2 | ⟨h2, h2'⟩
    · exact Or.inl (by omega)
    · exact Or.inl (by omega)
    · exact Or.inl (by omega)
    · exact Or.inr ⟨by omega, le_trans h1' h2'⟩

end freq

namespace freq

end freq

/-- Little-endian byte serialisation of a `u32` value (`to_le_bytes`). -/
def u32le (n : Nat) : List Nat :=
  [n % 256, n / 256 % 256, n / 65536 % 256, n / 16777216 % 256]

/-- Little-endian byte deserialisation (`from_le_bytes` on a 4-byte chunk). -/
def leNat : List Nat → Nat
  | [] => 0
  | b :: rest => b + 256 * leNat rest

/-- Little-endian byte serialisation of an `i32` token (`to_le_bytes`):
the bytes of its two's complement bit pattern. -/
def i32le (t : Int) : List Nat := u32le (toU32 t)

/-- `i32::from_le_bytes` on a 4-byte chunk. -/
def i32FromLe (l : List Nat) : Int := fromU32 (leNat l)

/-- The concatenated little-endian bytes of a token list. -/
def tokenBytes : List Int → List Nat
  | [] => []
  | t :: ts => i32le t ++ tokenBytes ts

/-- Rust range slicing `bytes[lo..hi]`: defined only when in bounds
(out of bounds panics, modelled as `none`). -/
def byteSlice (bytes : List Nat) (lo hi : Nat) : Option (List Nat) :=
  if lo ≤ hi ∧ hi ≤ bytes.length then some ((bytes.drop lo).take (hi - lo)) else none

/-- `usize::checked_mul` on a 64-bit platform. -/
def checkedMul (a b : Nat) : Option Nat :=
  if a * b < 2 ^ 64 then some (a * b) else none

/-- Error outcomes of `Header::decode` (src/header.rs): `malformed` for the
three `bail!`/`ok_or_else` paths, plus a `panic` outcome instrumenting the
slicing and `try_into().expect(..)` operations. -/
inductive HdrErr where
  | malformed
  | panic
deriving DecidableEq, Repr

/-- Model of `Header` (src/header.rs). -/
structure Header where
  tokens : List Int
  len : Nat
deriving DecidableEq, Repr

/-- Model of `Header::encode` (src/header.rs): 4-byte little-endian length
(`tokens.len() as u32`, hence the `% 2 ^ 32` truncating cast) followed by the
4-byte little-endian tokens in rank order. -/
def Header.encode (h : Header) : List Nat :=
  u32le (h.tokens.length % 2 ^ 32) ++ tokenBytes h.tokens

/-- The token-reading loop of `Header::decode` (src/header.rs): reads `n`
4-byte chunks starting at `offset`; slicing failures are panics. -/
def readTokens : Nat → Nat → List Nat → Except HdrErr (List Int)
  | 0, _, _ => .ok []
  | n + 1, offset, bytes =>
    match byteSlice bytes offset (offset + 4) with
    | none => .error .panic
    | some chunk =>
      if chunk.length = 4 then
        (readTokens n (offset + 4) bytes).map (fun ts => i32FromLe chunk :: ts)
      else .error .panic

/-- Model of `Header::decode` (src/header.rs). -/
def Header.decode (bytes : List Nat) : Except HdrErr Header :=
  if bytes.length < 4 then .error .malformed
  else
    match byteSlice bytes 0 4 with
    | none => .error .panic
    | some lenBytes =>
      if lenBytes.length = 4 then
        match checkedMul (leNat lenBytes) 4 with
        | none => .error .malformed
        | some expected =>
          if bytes.length - 4 ≠ expected then .error .malformed
          else (readTokens (leNat lenBytes) 4 bytes).map
            (fun ts => ⟨ts, leNat lenBytes⟩)
      else .error .panic

theorem leNat_u32le {n : Nat} (h : n < 2 ^ 32) : leNat (u32le n) = n := by
  simp only [u32le, leNat]
  omega

theorem u32le_length (n : Nat) : (u32le n).length = 4 := rfl

theorem fromU32_toU32 {t : Int} (h0 : -2 ^ 31 ≤ t) (h1 : t < 2 ^ 31) :
    fromU32 (toU32 t) = t := by
  unfold fromU32
  by_cases ht : 0 ≤ t
  · rw [toU32_of_nonneg ht (by omega)]
    have : t.toNat < 2 ^ 31 := by omega
    simp [this]
    omega
  · rw [toU32_of_neg (by omega) (by omega)]
    have : ¬((t + 2 ^ 32).toNat < 2 ^ 31) := by omega
    simp only [this, if_false]
    omega

theorem i32FromLe_i32le {t : Int} (h0 : -2 ^ 31 ≤ t) (h1 : t < 2 ^ 31) :
    i32FromLe (i32le t) = t := by
  unfold i32FromLe i32le
  rw [leNat_u32le (toU32_lt t)]
  exact fromU32_toU32 h0 h1

theorem i32le_length (t : Int) : (i32le t).length = 4 := rfl

theorem tokenBytes_length : ∀ ts : List Int, (tokenBytes ts).length = 4 * ts.length := by
  intro ts
  induction ts with
  | nil => rfl
  | cons t ts ih =>
    simp only [tokenBytes, List.length_append, i32le_length, ih, List.length_cons]
    ring

theorem byteSlice_of_le {bytes : List Nat} {lo hi : Nat} (h1 : lo ≤ hi)
    (h2 : hi ≤ bytes.length) :
    byteSlice bytes lo hi = some ((bytes.drop lo).take (hi - lo)) := by
  unfold byteSlice
  rw [if_pos ⟨h1, h2⟩]

theorem readTokens_tokenBytes : ∀ (ts : List Int) (pre : List Nat),
    (∀ t ∈ ts, -2 ^ 31 ≤ t ∧ t < 2 ^ 31) →
    readTokens ts.length pre.length (pre ++ tokenBytes ts) = .ok ts := by
  intro ts
  induction ts with
  | nil => intro pre _; rfl
  | cons t ts ih =>
    intro pre hr
    have hlen : (pre ++ tokenBytes (t :: ts)).length =
        pre.length + (4 + 4 * ts.length) := by
      simp [tokenBytes_length]
      ring
    simp only [List.length_cons, readTokens]
    rw [byteSlice_of_le (by omega) (by rw [hlen]; omega)]
    have hchunk : ((pre ++ tokenBytes (t :: ts)).drop pre.length).take
        (pre.length + 4 - pre.length) = i32le t := by
      rw [List.drop_left, show pre.length + 4 - pre.length = 4 by omega]
      show (tokenBytes (t :: ts)).take 4 = i32le t
      unfold tokenBytes
      rw [List.take_left' (i32le_length t)]
    rw [hchunk]
    simp only [i32le_length, if_pos]
    have hre : pre ++ tokenBytes (t :: ts) = (pre ++ i32le t) ++ tokenBytes ts := by
      rw [show tokenBytes (t :: ts) = i32le t ++ tokenBytes ts from rfl, List.append_assoc]
    have hoff : pre.length + 4 = (pre ++ i32le t).length := by
      simp [i32le_length]
    rw [hre, hoff, ih (pre ++ i32le t) (fun u hu => hr u (by simp [hu]))]
    rw [i32FromLe_i32le (hr t (by simp)).1 (hr t (by simp)).2]
    rfl

theorem take4_slice {bytes : List Nat} (h : 4 ≤ bytes.length) :
    byteSlice bytes 0 4 = some (bytes.take 4) := by
  rw [byteSlice_of_le (by omega) h]
  simp

theorem take4_length {bytes : List Nat} (h : 4 ≤ bytes.length) :
    (bytes.take 4).length = 4 := by
  rw [List.length_take]
  omega

theorem readTokens_succ_eq (n offset : Nat) (bytes : List Nat)
    (hb : offset + 4 ≤ bytes.length) :
    readTokens (n + 1) offset bytes =
      if ((bytes.drop offset).take 4).length = 4 then
        (readTokens n (offset + 4) bytes).map
          (fun ts => i32FromLe ((bytes.drop offset).take 4) :: ts)
      else .error .panic := by
  simp only [readTokens]
  rw [byteSlice_of_le (by omega) hb, show offset + 4 - offset = 4 by omega]

theorem readTokens_eq_ok : ∀ (n offset : Nat) (bytes : List Nat),
    offset + 4 * n ≤ bytes.length →
    readTokens n offset bytes =
      .ok ((List.range n).map (fun i => i32FromLe ((bytes.drop (offset + 4 * i)).take 4))) := by
  intro n
  induction n with
  | zero => intro offset bytes _; rfl
  | succ n ih =>
    intro offset bytes h
    rw [readTokens_succ_eq n offset bytes (by omega)]
    have hchlen : ((bytes.drop offset).take 4).length = 4 := by
      rw [List.length_take, List.length_drop]
      omega
    rw [if_pos hchlen, ih (offset + 4) bytes (by omega)]
    have hfun : ((fun i => i32FromLe ((bytes.drop (offset + 4 * i)).take 4)) ∘
        (fun i => i + 1)) = fun i => i32FromLe ((bytes.drop (offset + 4 + 4 * i)).take 4) := by
      funext i
      have harith : offset + 4 * (i + 1) = offset + 4 + 4 * i := by ring
      simp [Function.comp, harith]
    rw [List.range_succ_eq_map, List.map_cons, List.map_map, hfun]
    simp [Except.map]

theorem header_decode_short {bytes : List Nat} (h4 : bytes.length < 4) :
    Header.decode bytes = .error .malformed := by
  unfold Header.decode
  rw [if_pos h4]

theorem header_decode_unfold_if (bytes : List Nat) (h4 : ¬ bytes.length < 4) :
    Header.decode bytes =
      if (bytes.take 4).length = 4 then
        match checkedMul (leNat (bytes.take 4)) 4 with
        | none => .error .malformed
        | some expected =>
          if bytes.length - 4 ≠ expected then .error .malformed
          else (readTokens (leNat (bytes.take 4)) 4 bytes).map
            (fun ts => ⟨ts, leNat (bytes.take 4)⟩)
      else .error .panic := by
  unfold Header.decode
  rw [if_neg h4, take4_slice (by omega)]

theorem header_decode_unfold (bytes : List Nat) (h4 : ¬ bytes.length < 4) :
    Header.decode bytes =
      match checkedMul (leNat (bytes.take 4)) 4 with
      | none => .error .malformed
      | some expected =>
        if bytes.length - 4 ≠ expected then .error .malformed
        else (readTokens (leNat (bytes.take 4)) 4 bytes).map
          (fun ts => ⟨ts, leNat (bytes.take 4)⟩) := by
  rw [header_decode_unfold_if bytes h4, if_pos (take4_length (by omega))]

theorem header_decode_of_checked (bytes : List Nat) (h4 : ¬ bytes.length < 4)
    {E : Nat} (hcm : checkedMul (leNat (bytes.take 4)) 4 = some E) :
    Header.decode bytes =
      if bytes.length - 4 ≠ E then .error .malformed
      else (readTokens (leNat (bytes.take 4)) 4 bytes).map
        (fun ts => ⟨ts, leNat (bytes.take 4)⟩) := by
  rw [header_decode_unfold bytes h4, hcm]

theorem header_decode_of_checked_none (bytes : List Nat) (h4 : ¬ bytes.length < 4)
    (hcm : checkedMul (leNat (bytes.take 4)) 4 = none) :
    Header.decode bytes = .error .malformed := by
  rw [header_decode_unfold bytes h4, hcm]

theorem header_decode_ok (bytes : List Nat) (h4 : ¬ bytes.length < 4)
    (hmul : leNat (bytes.take 4) * 4 < 2 ^ 64)
    (hlen : bytes.length - 4 = leNat (bytes.take 4) * 4) :
    Header.decode bytes = .ok ⟨(List.range (leNat (bytes.take 4))).map
      (fun i => i32FromLe ((bytes.drop (4 + 4 * i)).take 4)), leNat (bytes.take 4)⟩ := by
  have hcm : checkedMul (leNat (bytes.take 4)) 4 = some (leNat (bytes.take 4) * 4) := by
    unfold checkedMul
    rw [if_pos hmul]
  rw [header_decode_of_checked bytes h4 hcm, if_neg (by omega),
    readTokens_eq_ok _ 4 bytes (by omega)]
  rfl

theorem header_decode_malformed_iff (bytes : List Nat) :
    (Header.decode bytes = .error .malformed) ↔
      (bytes.length < 4 ∨ 2 ^ 64 ≤ leNat (bytes.take 4) * 4 ∨
        bytes.length - 4 ≠ leNat (bytes.take 4) * 4) := by
  by_cases h4 : bytes.length < 4
  · rw [header_decode_short h4]
    simp [h4]
  · by_cases hmul : leNat (bytes.take 4) * 4 < 2 ^ 64
    · by_cases hlen : bytes.length - 4 = leNat (bytes.take 4) * 4
      · rw [header_decode_ok bytes h4 hmul hlen]
        simp only [iff_false_intro (by simp : ¬ (Except.ok
          (⟨(List.range (leNat (bytes.take 4))).map
            (fun i => i32FromLe ((bytes.drop (4 + 4 * i)).take 4)),
            leNat (bytes.take 4)⟩ : Header) = Except.error HdrErr.malformed))]
        constructor
        · intro hcon
          exact absurd hcon (by simp)
        · intro hcon
          rcases hcon with h | h | h
          · omega
          · omega
          · exact absurd hlen h
      · have hcm : checkedMul (leNat (bytes.take 4)) 4 =
            some (leNat (bytes.take 4) * 4) := by
          unfold checkedMul
          rw [if_pos hmul]
        rw [header_decode_of_checked bytes h4 hcm, if_pos hlen]
        constructor
        · intro _
          exact Or.inr (Or.inr hlen)
        · intro _
          rfl
    · have hcm : checkedMul (leNat (bytes.take 4)) 4 = none := by
        unfold checkedMul
        rw [if_neg hmul]
      rw [header_decode_of_checked_none bytes h4 hcm]
      constructor
      · intro _
        exact Or.inr (Or.inl (by omega))
      · intro _
        rfl

theorem header_decode_ne_panic (bytes : List Nat) :
    Header.decode bytes ≠ .error .panic := by
  by_cases h4 : bytes.length < 4
  · rw [header_decode_short h4]
    simp
  · by_cases hmul : leNat (bytes.take 4) * 4 < 2 ^ 64
    · by_cases hlen : bytes.length - 4 = leNat (bytes.take 4) * 4
      · rw [header_decode_ok bytes h4 hmul hlen]
        simp
      · have : Header.decode bytes = .error .malformed :=
          (header_decode_malformed_iff bytes).mpr (Or.inr (Or.inr hlen))
        rw [this]
        simp
    · have : Header.decode bytes = .error .malformed :=
        (header_decode_malformed_iff bytes).mpr (Or.inr (Or.inl (by omega)))
      rw [this]
      simp

/-- Header round trip for token lists of length below `2 ^ 32`. -/
theorem header_decode_encode {tokens : List Int}
    (hr : ∀ t ∈ tokens, -2 ^ 31 ≤ t ∧ t < 2 ^ 31) (hlen : tokens.length < 2 ^ 32) :
    Header.decode (Header.encode ⟨tokens, tokens.length⟩) = .ok ⟨tokens, tokens.length⟩ := by
  have hbytes : Header.encode ⟨tokens, tokens.length⟩ =
      u32le tokens.length ++ tokenBytes tokens := by
    unfold Header.encode
    rw [Nat.mod_eq_of_lt hlen]
  have hblen : (u32le tokens.length ++ tokenBytes tokens).length =
      4 + 4 * tokens.length := by
    simp [tokenBytes_length, u32le_length]
  have htake : (u32le tokens.length ++ tokenBytes tokens).take 4 = u32le tokens.length :=
    List.take_left' (u32le_length _)
  have hleNat : leNat ((u32le tokens.length ++ tokenBytes tokens).take 4) = tokens.length := by
    rw [htake, leNat_u32le hlen]
  rw [hbytes]
  have hcm : checkedMul (leNat ((u32le tokens.length ++ tokenBytes tokens).take 4)) 4 =
      some (tokens.length * 4) := by
    rw [hleNat]
    unfold checkedMul
    rw [if_pos (by omega)]
  rw [header_decode_of_checked _ (by omega) hcm, if_neg (by omega), hleNat]
  have hrt := readTokens_tokenBytes tokens (u32le tokens.length) hr
  rw [u32le_length] at hrt
  rw [hrt]
  rfl

/-- The truncating `tokens.len() as u32` cast in `Header::encode` breaks the
round trip at any token list of length exactly `2 ^ 32`. -/
theorem header_encode_wrap_aux (L : List Int) (hlenL : L.length = 2 ^ 32) :
    Header.decode (Header.encode ⟨L, 2 ^ 32⟩) = .error .malformed := by
  apply (header_decode_malformed_iff _).mpr
  have harg : L.length % 2 ^ 32 = 0 := by
    rw [hlenL]
    exact Nat.mod_self _
  have hbytes : Header.encode ⟨L, 2 ^ 32⟩ = u32le 0 ++ tokenBytes L := by
    show u32le (L.length % 2 ^ 32) ++ tokenBytes L = u32le 0 ++ tokenBytes L
    rw [harg]
  have hblen : (Header.encode ⟨L, 2 ^ 32⟩).length = 4 + 4 * 2 ^ 32 := by
    rw [hbytes, List.length_append, u32le_length, tokenBytes_length, hlenL]
  have htake : (Header.encode ⟨L, 2 ^ 32⟩).take 4 = u32le 0 := by
    rw [hbytes]
    exact List.take_left' (u32le_length _)
  right
  right
  rw [htake, hblen, leNat_u32le (by norm_num)]
  norm_num

/-- Concrete instance of the wrap: the all-zero list of length `2 ^ 32`. -/
theorem header_encode_wrap_malformed :
    Header.decode (Header.encode ⟨List.replicate (2 ^ 32) (0 : Int), 2 ^ 32⟩) =
      .error .malformed :=
  header_encode_wrap_aux _ (List.length_replicate _ _)

namespace varint

/-- The claim-level truncation condition: the stream ends while the current
value's continuation bit is still set, i.e. the last byte is a continuation
byte. -/
def lastCont (bytes : List Nat) : Prop :=
  ∃ b, bytes.getLast? = some b ∧ isCont b = true

theorem endsCont_zero_iff (bytes : List Nat) : endsCont 0 bytes ↔ lastCont bytes := by
  unfold endsCont lastCont
  cases hb : bytes.getLast? with
  | none => simp
  | some b => simp

/-- Decode-level outcome classification: overflow iff the structural overflow
condition holds, truncation iff the stream ends mid-value with no earlier
overflow, success otherwise. -/
theorem decode_classify (bytes : List Nat) :
    (decode bytes = .error .overflow ↔ OvfCond bytes)
    ∧ (decode bytes = .error .truncated ↔ (¬ OvfCond bytes ∧ lastCont bytes))
    ∧ ((∃ vs, decode bytes = .ok vs) ↔ (¬ OvfCond bytes ∧ ¬ lastCont bytes)) := by
  obtain ⟨h1, h2, h3⟩ := go_classify bytes 0 0 (by omega)
  rw [Nat.mul_zero] at h1 h2 h3
  have hovf : ovfSpec bytes 0 = true ↔ OvfCond bytes := by
    have h := ovfSpec_iff bytes 0 (by omega)
    rw [List.replicate_zero, List.nil_append] at h
    exact h
  have hend := endsCont_zero_iff bytes
  have hd1 : (decode bytes = .error .overflow ↔ OvfCond bytes) := by
    rw [← hovf]
    exact h1
  have hd2 : (decode bytes = .error .truncated ↔ (¬ OvfCond bytes ∧ lastCont bytes)) := by
    rw [← hovf, ← hend]
    rw [show (¬ ovfSpec bytes 0 = true ∧ endsCont 0 bytes) ↔
      (ovfSpec bytes 0 = false ∧ endsCont 0 bytes) from by simp]
    exact h2
  refine ⟨hd1, hd2, ?_⟩
  cases hres : decode bytes with
  | ok vs =>
    constructor
    · intro _
      have hno : ovfSpec bytes 0 ≠ true := by
        intro hc
        have hgo := h1.mpr hc
        rw [show go bytes 0 0 = Except.ok vs from hres] at hgo
        exact Except.noConfusion hgo
      have hnf : ovfSpec bytes 0 = false := by
        cases hb : ovfSpec bytes 0
        · rfl
        · exact absurd hb hno
      constructor
      · rw [← hovf]
        simp [hnf]
      · intro hc
        have hgo := h2.mpr ⟨hnf, hend.mpr hc⟩
        rw [show go bytes 0 0 = Except.ok vs from hres] at hgo
        exact Except.noConfusion hgo
    · intro _
      exact ⟨vs, rfl⟩
  | error e =>
    constructor
    · rintro ⟨vs, hvs⟩
      exact Except.noConfusion hvs
    · rintro ⟨hno, hnl⟩
      cases e with
      | overflow => exact absurd (hd1.mp hres) hno
      | truncated => exact absurd (hd2.mp hres).2 hnl
      | panic => exact absurd hres h3

end varint

namespace freq

end freq

/-- Claim C2: ZigZag encode and decode are mutually inverse on the full
`i32` range, the five reference anchors hold, and outputs are even exactly
for non-negative inputs. -/
theorem claim_c2_zigzag_bijection (x : Int) (h0 : -2 ^ 31 ≤ x) (h1 : x < 2 ^ 31) :
    zigzag.decode (zigzag.encode x) = x
    ∧ zigzag.encode 0 = 0 ∧ zigzag.encode (-1) = 1 ∧ zigzag.encode 1 = 2
    ∧ zigzag.encode (-2) = 3 ∧ zigzag.encode 2 = 4
    ∧ (zigzag.encode x % 2 = 0 ↔ 0 ≤ x) := by
  refine ⟨zigzag.decode_encode_i32 h0 h1, by decide, by decide, by decide, by decide,
    by decide, ?_⟩
  rw [zigzag.encode_eq h0 h1]
  by_cases hx : 0 ≤ x
  · simp only [hx, if_true, iff_true]
    omega
  · simp only [hx, if_false, iff_false]
    omega

theorem claim_c2_witness :
    zigzag.decode (zigzag.encode (-2147483648)) = -2147483648
    ∧ zigzag.decode (zigzag.encode 2147483647) = 2147483647 :=
  ⟨(claim_c2_zigzag_bijection (-2147483648) (by norm_num) (by norm_num)).1,
   (claim_c2_zigzag_bijection 2147483647 (by norm_num) (by norm_num)).1⟩

/-- Claim C3: Varint decode inverts encode on every finite sequence of `u32`
values, the four known byte vectors hold, and each value occupies between 1
and 5 bytes. -/
theorem claim_c3_varint_round_trip (vs : List Nat) (h : ∀ v ∈ vs, v < 2 ^ 32) :
    varint.decode (varint.encode vs) = .ok vs
    ∧ varint.encode [0] = [0x00] ∧ varint.encode [127] = [0x7F]
    ∧ varint.encode [128] = [0x80, 0x01] ∧ varint.encode [300] = [0xAC, 0x02]
    ∧ ∀ v ∈ vs, 1 ≤ (varint.encodeOne v).length ∧ (varint.encodeOne v).length ≤ 5 :=
  ⟨varint.decode_encode_stream vs h, by decide, by decide, by decide, by decide,
   fun v hv => varint.encodeOne_length_bounds (h v hv)⟩

theorem claim_c3_witness :
    varint.decode (varint.encode [0, 127, 128, 300, 4294967295]) =
      .ok [0, 127, 128, 300, 4294967295] :=
  (claim_c3_varint_round_trip [0, 127, 128, 300, 4294967295] (by decide)).1

/-- Claim C4: Varint decode fails, and fails only, on malformed streams:
Overflow exactly when some single value carries five continuation bytes and
a sixth byte for that value is present (a shift of 35 ≥ 32 bits would be
required before its terminating byte), Truncated exactly when no such
overflow occurs before the stream ends with a continuation bit still set,
and every other stream decodes successfully; with the two reference
failure vectors. -/
theorem claim_c4_varint_failure_modes (bytes : List Nat) :
    (varint.decode bytes = .error .overflow ↔ varint.OvfCond bytes)
    ∧ (varint.decode bytes = .error .truncated ↔
        (¬ varint.OvfCond bytes ∧ varint.lastCont bytes))
    ∧ ((∃ vs, varint.decode bytes = .ok vs) ↔
        (¬ varint.OvfCond bytes ∧ ¬ varint.lastCont bytes))
    ∧ varint.decode [128] = .error .truncated
    ∧ varint.decode (List.replicate 10 255 ++ [1]) = .error .overflow := by
  obtain ⟨h1, h2, h3⟩ := varint.decode_classify bytes
  exact ⟨h1, h2, h3, by decide, by decide⟩

/-- Claim C7 (amended): for every list of `i32` tokens with fewer than
`2 ^ 32` entries, encoding a Header built from that list and decoding the
resulting bytes returns an equal Header.  (At exactly `2 ^ 32` tokens the
`tokens.len() as u32` cast in `Header::encode` wraps to 0 and the round trip
fails; see the counterexample.) -/
theorem claim_c7_header_round_trip (tokens : List Int)
    (hr : ∀ t ∈ tokens, -2 ^ 31 ≤ t ∧ t < 2 ^ 31)
    (hlen : tokens.length < 2 ^ 32) :
    Header.decode (Header.encode ⟨tokens, tokens.length⟩) = .ok ⟨tokens, tokens.length⟩ :=
  header_decode_encode hr hlen

theorem claim_c7_witness :
    Header.decode (Header.encode ⟨[10, 20, -5, 42], [10, 20, -5, 42].length⟩) =
      .ok ⟨[10, 20, -5, 42], [10, 20, -5, 42].length⟩ :=
  claim_c7_header_round_trip [10, 20, -5, 42] (by decide) (by decide)

/-- Claim C7 counterexample: a Header built from a list of exactly `2 ^ 32`
tokens does not round-trip — the `as u32` length cast wraps to 0 and decode
reports a size mismatch. -/
theorem claim_c7_counterexample :
    ¬ (Header.decode (Header.encode ⟨List.replicate (2 ^ 32) (0 : Int), 2 ^ 32⟩) =
      .ok ⟨List.replicate (2 ^ 32) (0 : Int), 2 ^ 32⟩) := by
  rw [header_encode_wrap_malformed]
  intro hc
  exact Except.noConfusion hc

/-- Claim C8: `Header::decode` reports a malformed error precisely when the
input has fewer than 4 bytes, the declared count times 4 overflows the
64-bit size type, or the remaining byte count differs from declared count
times 4; otherwise it succeeds and returns exactly the declared number of
tokens read in order as 4-byte little-endian signed integers. -/
theorem claim_c8_header_decode_errors (bytes : List Nat) :
    ((Header.decode bytes = .error .malformed) ↔
      (bytes.length < 4 ∨ 2 ^ 64 ≤ leNat (bytes.take 4) * 4 ∨
        bytes.length - 4 ≠ leNat (bytes.take 4) * 4))
    ∧ ((¬ bytes.length < 4) → leNat (bytes.take 4) * 4 < 2 ^ 64 →
        bytes.length - 4 = leNat (bytes.take 4) * 4 →
        Header.decode bytes = .ok ⟨(List.range (leNat (bytes.take 4))).map
          (fun i => i32FromLe ((bytes.drop (4 + 4 * i)).take 4)), leNat (bytes.take 4)⟩) :=
  ⟨header_decode_malformed_iff bytes,
   fun h4 hmul hlen => header_decode_ok bytes h4 hmul hlen⟩

theorem claim_c8_witness :
    Header.decode [2, 0, 0, 0, 1, 0, 0, 0, 255, 255, 255, 255] =
      .ok ⟨(List.range (leNat ([2, 0, 0, 0, 1, 0, 0, 0, 255, 255, 255, 255].take 4))).map
        (fun i => i32FromLe
          (([2, 0, 0, 0, 1, 0, 0, 0, 255, 255, 255, 255].drop (4 + 4 * i)).take 4)),
        leNat ([2, 0, 0, 0, 1, 0, 0, 0, 255, 255, 255, 255].take 4)⟩ :=
  (claim_c8_header_decode_errors _).2 (by decide) (by decide) (by decide)

/-- Claim C9: on arbitrary byte input, `Header::decode` and `varint::decode`
are total and never reach a panicking operation — every slice index is
bounds-checked, the `length * 4` product is overflow-checked, and the
accumulator shift is guarded — so every malformation is an error result. -/
theorem claim_c9_no_panic (bytes : List Nat) :
    Header.decode bytes ≠ .error .panic ∧ varint.decode bytes ≠ .error .panic := by
  refine ⟨header_decode_ne_panic bytes, ?_⟩
  obtain ⟨-, -, h3⟩ := varint.go_classify bytes 0 0 (by omega)
  rw [Nat.mul_zero] at h3
  exact h3

/-- Claim C10: `varint::decode` accepts the non-canonical five-byte encoding
`FF FF FF FF 7F`, silently discarding the payload bits of the fifth byte
above bit 31 and returning `u32::MAX`, even though `varint::encode` never
produces that byte string; hence some accepted stream `b` has
`encode (decode b) ≠ b`. -/
theorem claim_c10_non_canonical :
    varint.decode [255, 255, 255, 255, 127] = .ok [4294967295]
    ∧ varint.encode [4294967295] ≠ [255, 255, 255, 255, 127]
    ∧ (¬ ∃ vs, (∀ v ∈ vs, v < 2 ^ 32) ∧
        varint.encode vs = [255, 255, 255, 255, 127])
    ∧ (∃ b vs, varint.decode b = .ok vs ∧ varint.encode vs ≠ b) := by
  refine ⟨by decide, by decide, ?_,
    ⟨[255, 255, 255, 255, 127], [4294967295], by decide, by decide⟩⟩
  rintro ⟨vs, hb, henc⟩
  have hrt := varint.decode_encode_stream vs hb
  rw [henc] at hrt
  have hdec : varint.decode [255, 255, 255, 255, 127] = .ok [4294967295] := by decide
  rw [hdec] at hrt
  have hvs : vs = [4294967295] := (Except.ok.inj hrt).symm
  subst hvs
  exact absurd henc (by decide)

end Miso
